import Mathlib

/-!
Verification of the version-range core of `src/bin/index.js` (springjs):
`parseVersion`, `compareVersions` and `checkRange`.

JavaScript strings are modelled as `List Char`; every string operation the
source uses (`split`, `trim`, `startsWith`, `endsWith`, `slice`, `includes`,
truthiness of strings, `null`) is given an explicit Lean definition below.
`String.prototype.localeCompare` is modelled as code-unit lexicographic
comparison, the locale-free ECMA-262 baseline behaviour.
`parseInt` on an all-digit token is modelled as the exact decimal value.
-/

/-- JS `version.split(/[-.]/)` generalised: split a character list at every
character satisfying `p`, keeping empty fragments, so that splitting the
empty list yields `[[]]` exactly as `"".split` yields `[""]`. -/
def splitList (p : Char → Bool) : List Char → List (List Char)
  | [] => [[]]
  | c :: rest =>
    if p c then
      [] :: splitList p rest
    else
      match splitList p rest with
      | [] => [[c]]
      | t :: ts => (c :: t) :: ts

/-- Separator class of the regex `[-.]` used by `parseVersion`. -/
def isVersionSep (c : Char) : Bool := decide (c = '-' ∨ c = '.')

/-- Separator used by `checkRange`, the literal comma of `split(',')`. -/
def isComma (c : Char) : Bool := decide (c = ',')

/-- The regex test `/^\d+$/.test(part)`: non-empty and all ASCII digits. -/
def isNumericToken (p : List Char) : Bool := !p.isEmpty && p.all Char.isDigit

/-- `parseInt(part, 10)` on a token that matched `/^\d+$/`. -/
def natOfDigits (p : List Char) : Nat :=
  p.foldl (fun acc c => acc * 10 + (c.toNat - '0'.toNat)) 0

/-- The `for (const part of parts) { ... break }` loop of `parseVersion`:
collect the leading numeric tokens and the first non-numeric token (JS
`qualifier`, `none` standing for the initial `null`). -/
def collectParts : List (List Char) → List Nat × Option (List Char)
  | [] => ([], none)
  | p :: rest =>
    if isNumericToken p then
      let (ns, q) := collectParts rest
      (natOfDigits p :: ns, q)
    else
      ([], some p)

/-- The structured version value built by `parseVersion`. -/
structure Version where
  major : Nat
  minor : Nat
  patch : Nat
  qualifier : List Char
deriving DecidableEq, Repr

/-- `parseVersion(version)` from `src/bin/index.js`: split on `[-.]`, consume
the leading numeric tokens, pad with zeros to three entries (`while
(numericParts.length < 3) numericParts.push(0)`), and default a `null`
qualifier to the empty string (`qualifier || ''`). -/
def parseVersion (version : List Char) : Version :=
  let parts := splitList isVersionSep version
  let (numericParts, qualifier) := collectParts parts
  let padded := numericParts ++ List.replicate (3 - numericParts.length) 0
  { major := padded.getD 0 0
    minor := padded.getD 1 0
    patch := padded.getD 2 0
    qualifier := qualifier.getD [] }

/-- JS `q.startsWith(pre)` on our character-list strings. -/
def startsWithList (pre s : List Char) : Bool :=
  match pre, s with
  | [], _ => true
  | _ :: _, [] => false
  | a :: as, b :: bs => decide (a = b) && startsWithList as bs

/-- JS `hay.includes(needle)`. -/
def jsIncludes (hay needle : List Char) : Bool :=
  match hay with
  | [] => needle.isEmpty
  | _ :: rest => startsWithList needle hay || jsIncludes rest needle

def qRELEASE : List Char := "RELEASE".data
def qRC : List Char := "RC".data
def qM : List Char := "M".data
def qSNAPSHOT : List Char := "SNAPSHOT".data

/-- `getQualifierRank` from `compareVersions`: `!q` is `q === ''` here since
a parsed qualifier is always a (possibly empty) string. -/
def getQualifierRank (q : List Char) : Nat :=
  if q = [] ∨ q = qRELEASE then 4
  else if startsWithList qRC q then 3
  else if startsWithList qM q then 2
  else if jsIncludes q qSNAPSHOT then 1
  else 0

/-- Model of `String.prototype.localeCompare`: three-way code-unit
lexicographic comparison (the ECMA-262 baseline with no locale data). -/
def localeCompare (s t : List Char) : Int :=
  match s, t with
  | [], [] => 0
  | [], _ :: _ => -1
  | _ :: _, [] => 1
  | a :: as, b :: bs =>
    if a < b then -1
    else if b < a then 1
    else localeCompare as bs

/-- `compareVersions(v1, v2)` from `src/bin/index.js`. -/
def compareVersions (v1 v2 : Version) : Int :=
  if v1.major ≠ v2.major then (v1.major : Int) - (v2.major : Int)
  else if v1.minor ≠ v2.minor then (v1.minor : Int) - (v2.minor : Int)
  else if v1.patch ≠ v2.patch then (v1.patch : Int) - (v2.patch : Int)
  else
    let r1 := getQualifierRank v1.qualifier
    let r2 := getQualifierRank v2.qualifier
    if r1 ≠ r2 then (r1 : Int) - (r2 : Int)
    else if r1 = 4 then 0
    else localeCompare v1.qualifier v2.qualifier

/-- The ECMAScript white-space and line-terminator characters removed by
`String.prototype.trim`. -/
def jsIsWhitespace (c : Char) : Bool :=
  decide (c = ' ' ∨ c = '\t' ∨ c = '\n' ∨ c = '\r' ∨ c = '\x0b' ∨ c = '\x0c' ∨
    c = ' ' ∨ c = ' ' ∨ (' ' ≤ c ∧ c ≤ ' ') ∨ c = ' ' ∨
    c = ' ' ∨ c = ' ' ∨ c = ' ' ∨ c = '　' ∨ c = '﻿')

/-- JS `s.trim()`. -/
def jsTrim (s : List Char) : List Char :=
  ((s.dropWhile jsIsWhitespace).reverse.dropWhile jsIsWhitespace).reverse

/-- JS `s.startsWith(c)` for a single character `c`. -/
def startsWithChar (s : List Char) (c : Char) : Bool :=
  match s with
  | [] => false
  | a :: _ => decide (a = c)

/-- JS `s.endsWith(c)` for a single character `c`. -/
def endsWithChar (s : List Char) (c : Char) : Bool :=
  match s.getLast? with
  | none => false
  | some a => decide (a = c)

/-- The `if (end) { ... }` tail of `checkRange`: `end` is `null` or a string,
and an empty string is falsy, so both impose no upper constraint. -/
def checkUpper (version : Version) (endOpt : Option (List Char))
    (endInclusive : Bool) : Bool :=
  match endOpt with
  | none => true
  | some e =>
    if e ≠ [] then
      let endVer := parseVersion e
      let comp := compareVersions version endVer
      if endInclusive && decide (0 < comp) then false
      else if !endInclusive && decide (0 ≤ comp) then false
      else true
    else true

/-- The `if (start) { ... } if (end) { ... } return true` tail of
`checkRange`, with the early `return false` exits made explicit. -/
def checkBounds (version : Version) (start : List Char)
    (endOpt : Option (List Char)) (startInclusive endInclusive : Bool) : Bool :=
  if start ≠ [] then
    let startVer := parseVersion start
    let comp := compareVersions version startVer
    if startInclusive && decide (comp < 0) then false
    else if !startInclusive && decide (comp ≤ 0) then false
    else checkUpper version endOpt endInclusive
  else checkUpper version endOpt endInclusive

/-- `checkRange(versionStr, rangeStr)` from `src/bin/index.js`. `rangeStr`
is `Option` so that the absent/`undefined` argument of the JS falsy test
`if (!rangeStr)` is representable; `none` and `some []` are both falsy.
In the bare branch `endInclusive` stays `undefined` in JS and is never
read because `end` is `null`; here it is passed as `false` arbitrarily. -/
def checkRange (versionStr : List Char) (rangeStr : Option (List Char)) : Bool :=
  match rangeStr with
  | none => true
  | some rs =>
    if rs = [] then true
    else
      let version := parseVersion versionStr
      let rangeDetails := jsTrim rs
      if (startsWithChar rangeDetails '[' || startsWithChar rangeDetails '(') &&
         (endsWithChar rangeDetails ']' || endsWithChar rangeDetails ')') then
        match splitList isComma rangeDetails with
        | [p0, p1] =>
          checkBounds version (jsTrim (p0.drop 1)) (some (jsTrim p1.dropLast))
            (startsWithChar rangeDetails '[') (endsWithChar rangeDetails ']')
        | _ => true
      else
        checkBounds version rangeDetails none true false

/-! ### Helper lemmas about the string model -/

theorem localeCompare_self (s : List Char) : localeCompare s s = 0 := by
  induction s with
  | nil => rfl
  | cons a as ih => simp [localeCompare, ih]

theorem localeCompare_swap (s t : List Char) : localeCompare t s = -localeCompare s t := by
  induction s generalizing t with
  | nil => cases t <;> rfl
  | cons a as ih =>
    cases t with
    | nil => rfl
    | cons b bs =>
      by_cases hab : a < b
      · have hba : ¬ b < a := lt_asymm hab
        simp [localeCompare, hab, hba]
      · by_cases hba : b < a
        · simp [localeCompare, hab, hba]
        · simp [localeCompare, hab, hba, ih]

theorem localeCompare_eq_zero_iff (s t : List Char) : localeCompare s t = 0 ↔ s = t := by
  induction s generalizing t with
  | nil => cases t <;> simp [localeCompare]
  | cons a as ih =>
    cases t with
    | nil => simp [localeCompare]
    | cons b bs =>
      by_cases hab : a < b
      · have hne : a ≠ b := ne_of_lt hab
        simp [localeCompare, hab, hne]
      · by_cases hba : b < a
        · have hne : a ≠ b := (ne_of_lt hba).symm
          simp [localeCompare, hab, hba, hne]
        · have heq : a = b := le_antisymm (not_lt.mp hba) (not_lt.mp hab)
          subst heq
          simp [localeCompare, ih]

theorem localeCompare_neg_iff (s t : List Char) : localeCompare s t < 0 ↔ s < t := by
  induction s generalizing t with
  | nil =>
    cases t with
    | nil => exact iff_of_false (by simp [localeCompare]) (fun h => nomatch h)
    | cons b bs => exact iff_of_true (by simp [localeCompare]) List.Lex.nil
  | cons a as ih =>
    cases t with
    | nil => exact iff_of_false (by simp [localeCompare]) (fun h => nomatch h)
    | cons b bs =>
      by_cases hab : a < b
      · exact iff_of_true (by simp [localeCompare, hab]) (List.Lex.rel hab)
      · by_cases hba : b < a
        · refine iff_of_false (by simp [localeCompare, hab, hba]) (fun h => ?_)
          cases h with
          | rel h' => exact hab h'
          | cons _ => exact lt_irrefl a hba
        · have heq : a = b := le_antisymm (not_lt.mp hba) (not_lt.mp hab)
          subst heq
          simp only [localeCompare, if_neg hab]
          rw [ih]
          constructor
          · exact List.Lex.cons
          · intro h
            cases h with
            | rel h' => exact absurd h' hab
            | cons h3 => exact h3

theorem startsWithList_iff (pre s : List Char) : startsWithList pre s = true ↔ pre <+: s := by
  induction pre generalizing s with
  | nil => simp [startsWithList]
  | cons a as ih =>
    cases s with
    | nil => simp [startsWithList]
    | cons b bs => simp [startsWithList, ih, List.cons_prefix_cons]

theorem jsIncludes_iff (hay needle : List Char) : jsIncludes hay needle = true ↔ needle <:+: hay := by
  induction hay with
  | nil => simp [jsIncludes, List.isEmpty_iff]
  | cons c rest ih =>
    rw [List.infix_cons_iff]
    simp [jsIncludes, ih, startsWithList_iff]

theorem splitList_no_sep (p : Char → Bool) (s : List Char)
    (h : ∀ c ∈ s, p c = false) : splitList p s = [s] := by
  induction s with
  | nil => rfl
  | cons c rest ih =>
    have hc : p c = false := h c (by simp)
    have hrest := ih (fun x hx => h x (by simp [hx]))
    simp [splitList, hc, hrest]

theorem splitList_append_sep (p : Char → Bool) (xs ys : List Char) (sep : Char)
    (hxs : ∀ c ∈ xs, p c = false) (hsep : p sep = true) :
    splitList p (xs ++ sep :: ys) = xs :: splitList p ys := by
  induction xs with
  | nil => simp [splitList, hsep]
  | cons c rest ih =>
    have hc : p c = false := hxs c (by simp)
    have hrest := ih (fun x hx => hxs x (by simp [hx]))
    simp [splitList, hc, hrest]

theorem jsTrim_eq_nil (s : List Char) (h : ∀ c ∈ s, jsIsWhitespace c = true) :
    jsTrim s = [] := by
  have h1 : s.dropWhile jsIsWhitespace = [] :=
    List.dropWhile_eq_nil_iff.mpr (fun x hx => by simpa using h x hx)
  unfold jsTrim
  rw [h1]
  rfl

theorem jsTrim_of_ends (L R : Char) (mid : List Char)
    (hL : jsIsWhitespace L = false) (hR : jsIsWhitespace R = false) :
    jsTrim (L :: (mid ++ [R])) = L :: (mid ++ [R]) := by
  unfold jsTrim
  rw [List.dropWhile_cons_of_neg (by simp [hL])]
  have : (L :: (mid ++ [R])).reverse = R :: (mid.reverse ++ [L]) := by
    simp
  rw [this, List.dropWhile_cons_of_neg (by simp [hR]), ← this, List.reverse_reverse]

theorem padded_getD (l : List Nat) (i : Nat) (h : i < 3) :
    (l ++ List.replicate (3 - l.length) 0).getD i 0 = l.getD i 0 := by
  match l with
  | [] => interval_cases i <;> rfl
  | [a] => interval_cases i <;> rfl
  | [a, b] => interval_cases i <;> rfl
  | a :: b :: c :: rest =>
    have hlen : 3 - (a :: b :: c :: rest).length = 0 := by simp
    rw [hlen]
    simp

theorem parseVersion_eq (v : List Char) :
    parseVersion v =
      { major := (collectParts (splitList isVersionSep v)).1.getD 0 0
        minor := (collectParts (splitList isVersionSep v)).1.getD 1 0
        patch := (collectParts (splitList isVersionSep v)).1.getD 2 0
        qualifier := ((collectParts (splitList isVersionSep v)).2).getD [] } := by
  rcases hcp : collectParts (splitList isVersionSep v) with ⟨ns, q⟩
  have h0 := padded_getD ns 0 (by omega)
  have h1 := padded_getD ns 1 (by omega)
  have h2 := padded_getD ns 2 (by omega)
  simp only [parseVersion, hcp]
  refine Version.mk.injEq .. ▸ ?_
  exact ⟨by simpa using h0, by simpa using h1, by simpa using h2, rfl⟩

theorem collectParts_to_break (nums : List (List Char)) (q : List Char)
    (rest : List (List Char)) (hn : ∀ p ∈ nums, isNumericToken p = true)
    (hq : isNumericToken q = false) :
    collectParts (nums ++ q :: rest) = (nums.map natOfDigits, some q) := by
  induction nums with
  | nil => simp [collectParts, hq]
  | cons p ps ih =>
    have hp : isNumericToken p = true := hn p (by simp)
    have hps := ih (fun x hx => hn x (by simp [hx]))
    simp [collectParts, hp, hps]

theorem collectParts_all_numeric (nums : List (List Char))
    (hn : ∀ p ∈ nums, isNumericToken p = true) :
    collectParts nums = (nums.map natOfDigits, none) := by
  induction nums with
  | nil => rfl
  | cons p ps ih =>
    have hp : isNumericToken p = true := hn p (by simp)
    have hps := ih (fun x hx => hn x (by simp [hx]))
    simp [collectParts, hp, hps]

/-! ### Properties of the comparator -/

theorem compareVersions_self (a : Version) : compareVersions a a = 0 := by
  simp [compareVersions, localeCompare_self]

theorem compareVersions_swap (a b : Version) :
    compareVersions b a = -compareVersions a b := by
  simp only [compareVersions]
  split_ifs <;>
    first
      | omega
      | exact localeCompare_swap a.qualifier b.qualifier

theorem compareVersions_eq_zero_iff (a b : Version) :
    compareVersions a b = 0 ↔
      a.major = b.major ∧ a.minor = b.minor ∧ a.patch = b.patch ∧
      getQualifierRank a.qualifier = getQualifierRank b.qualifier ∧
      (getQualifierRank a.qualifier = 4 ∨ a.qualifier = b.qualifier) := by
  simp only [compareVersions]
  split_ifs with h1 h2 h3 h4 h5
  · exact iff_of_false (by omega) (by tauto)
  · exact iff_of_false (by omega) (by tauto)
  · exact iff_of_false (by omega) (by tauto)
  · exact iff_of_false (by omega) (by tauto)
  · exact iff_of_true rfl ⟨by omega, by omega, by omega, by omega, Or.inl h5⟩
  · rw [localeCompare_eq_zero_iff]
    constructor
    · intro h
      exact ⟨by omega, by omega, by omega, by omega, Or.inr h⟩
    · rintro ⟨-, -, -, -, h | h⟩
      · exact absurd h h5
      · exact h

theorem getQualifierRank_eq (q : List Char) :
    getQualifierRank q =
      if q = [] ∨ q = qRELEASE then 4
      else if qRC <+: q then 3
      else if qM <+: q then 2
      else if qSNAPSHOT <:+: q then 1
      else 0 := by
  unfold getQualifierRank
  simp only [startsWithList_iff, jsIncludes_iff]

/-- C4: the comparator is a total, consistent ordering: trichotomy of the
sign of the result, reflexive zero, antisymmetry of the sign, and
transitivity of comparison-equality. -/
theorem compareVersions_total_order (a b c : Version) :
    compareVersions a a = 0
  ∧ (compareVersions a b < 0 ↔ compareVersions b a > 0)
  ∧ (compareVersions a b < 0 ∨ compareVersions a b = 0 ∨ compareVersions a b > 0)
  ∧ ¬(compareVersions a b < 0 ∧ compareVersions a b = 0)
  ∧ ¬(compareVersions a b < 0 ∧ compareVersions a b > 0)
  ∧ ¬(compareVersions a b = 0 ∧ compareVersions a b > 0)
  ∧ (compareVersions a b = 0 → compareVersions b c = 0 → compareVersions a c = 0) := by
  have hswap := compareVersions_swap a b
  refine ⟨compareVersions_self a, by omega, by omega, by omega, by omega, by omega, ?_⟩
  intro h1 h2
  rw [compareVersions_eq_zero_iff] at h1 h2 ⊢
  obtain ⟨e1, e2, e3, e4, e5⟩ := h1
  obtain ⟨f1, f2, f3, f4, f5⟩ := h2
  refine ⟨e1.trans f1, e2.trans f2, e3.trans f3, e4.trans f4, ?_⟩
  rcases e5 with h | h
  · exact Or.inl h
  · rcases f5 with h' | h'
    · exact Or.inl (e4.trans h')
    · exact Or.inr (h.trans h')

/-- C4 witness: comparison-equality is transitive at `3.0.0`,
`3.0.0-RELEASE`, `3.0.0`. -/
theorem compareVersions_total_order_witness :
    compareVersions (parseVersion ("3.0.0".data)) (parseVersion ("3.0.0".data)) = 0 := by
  have h := compareVersions_total_order (parseVersion ("3.0.0".data))
    (parseVersion ("3.0.0-RELEASE".data)) (parseVersion ("3.0.0".data))
  exact h.2.2.2.2.2.2 (by decide) (by decide)

/-- C5: the comparator compares major, minor, patch numerically and decides
on the first non-zero difference; on equal numerics it ranks the qualifiers
(4 empty or exactly RELEASE, 3 starting with RC, 2 starting with M, 1
containing SNAPSHOT, 0 other non-empty) and decides by rank when the ranks
differ; two rank-4 versions are equal regardless of qualifier text, and
equal ranks below 4 are ordered lexicographically on the raw qualifier. -/
theorem compareVersions_order_spec (a b : Version) :
    (a.major ≠ b.major → compareVersions a b = (a.major : Int) - (b.major : Int))
  ∧ (a.major = b.major → a.minor ≠ b.minor →
      compareVersions a b = (a.minor : Int) - (b.minor : Int))
  ∧ (a.major = b.major → a.minor = b.minor → a.patch ≠ b.patch →
      compareVersions a b = (a.patch : Int) - (b.patch : Int))
  ∧ (a.major = b.major → a.minor = b.minor → a.patch = b.patch →
      getQualifierRank a.qualifier ≠ getQualifierRank b.qualifier →
      compareVersions a b =
        (getQualifierRank a.qualifier : Int) - (getQualifierRank b.qualifier : Int))
  ∧ (a.qualifier = [] ∨ a.qualifier = qRELEASE → getQualifierRank a.qualifier = 4)
  ∧ (qRC <+: a.qualifier → getQualifierRank a.qualifier = 3)
  ∧ (qM <+: a.qualifier → getQualifierRank a.qualifier = 2)
  ∧ (qSNAPSHOT <:+: a.qualifier → ¬(qRC <+: a.qualifier) → ¬(qM <+: a.qualifier) →
      getQualifierRank a.qualifier = 1)
  ∧ (a.qualifier ≠ [] → a.qualifier ≠ qRELEASE → ¬(qRC <+: a.qualifier) →
      ¬(qM <+: a.qualifier) → ¬(qSNAPSHOT <:+: a.qualifier) →
      getQualifierRank a.qualifier = 0)
  ∧ (a.major = b.major → a.minor = b.minor → a.patch = b.patch →
      getQualifierRank a.qualifier = 4 → getQualifierRank b.qualifier = 4 →
      compareVersions a b = 0)
  ∧ (a.major = b.major → a.minor = b.minor → a.patch = b.patch →
      getQualifierRank a.qualifier = getQualifierRank b.qualifier →
      getQualifierRank a.qualifier ≠ 4 →
      (compareVersions a b < 0 ↔ a.qualifier < b.qualifier))
  ∧ compareVersions (parseVersion ("3.0.0".data)) (parseVersion ("3.0.0-RELEASE".data)) = 0
  ∧ compareVersions (parseVersion ("3.0.0-M1".data)) (parseVersion ("3.0.0-M2".data)) < 0
  ∧ 0 < compareVersions (parseVersion ("3.0.0-RC1".data)) (parseVersion ("3.0.0-M9".data))
  ∧ 0 < compareVersions (parseVersion ("3.0.0-SNAPSHOT".data)) (parseVersion ("3.0.0-weird".data)) := by
  refine ⟨?_, ?_, ?_, ?_, ?_, ?_, ?_, ?_, ?_, ?_, ?_, by decide, by decide, by decide, by decide⟩
  · intro h
    simp only [compareVersions]
    rw [if_pos h]
  · intro e1 h
    simp only [compareVersions]
    rw [if_neg (by omega), if_pos h]
  · intro e1 e2 h
    simp only [compareVersions]
    rw [if_neg (by omega), if_neg (by omega), if_pos h]
  · intro e1 e2 e3 h
    simp only [compareVersions]
    rw [if_neg (by omega), if_neg (by omega), if_neg (by omega), if_pos h]
  · intro h
    rw [getQualifierRank_eq, if_pos h]
  · intro h
    have h1 : ¬(a.qualifier = [] ∨ a.qualifier = qRELEASE) := by
      rintro (hE | hR)
      · rw [hE] at h
        exact absurd ( List.prefix_nil.mp h) (by decide)
      · rw [hR] at h
        exact absurd h (by decide)
    rw [getQualifierRank_eq, if_neg h1, if_pos h]
  · intro h
    have h1 : ¬(a.qualifier = [] ∨ a.qualifier = qRELEASE) := by
      rintro (hE | hR)
      · rw [hE] at h
        exact absurd ( List.prefix_nil.mp h) (by decide)
      · rw [hR] at h
        exact absurd h (by decide)
    have h2 : ¬(qRC <+: a.qualifier) := by
      intro hc
      obtain ⟨t, ht⟩ := h
      obtain ⟨u, hu⟩ := hc
      rw [← ht] at hu
      have hh := congrArg List.head? hu
      simp [qRC, qM] at hh
    rw [getQualifierRank_eq, if_neg h1, if_neg h2, if_pos h]
  · intro h hrc hm
    have h1 : ¬(a.qualifier = [] ∨ a.qualifier = qRELEASE) := by
      rintro (hE | hR)
      · rw [hE] at h
        exact absurd ( List.infix_nil.mp h) (by decide)
      · rw [hR] at h
        exact absurd h (by decide)
    rw [getQualifierRank_eq, if_neg h1, if_neg hrc, if_neg hm, if_pos h]
  · intro hE hR hrc hm hs
    rw [getQualifierRank_eq, if_neg (by tauto), if_neg hrc, if_neg hm, if_neg hs]
  · intro e1 e2 e3 h4 h5
    simp only [compareVersions]
    rw [if_neg (by omega), if_neg (by omega), if_neg (by omega), if_neg (by omega),
      if_pos h4]
  · intro e1 e2 e3 e4 h5
    have hc : compareVersions a b = localeCompare a.qualifier b.qualifier := by
      simp only [compareVersions]
      rw [if_neg (by omega), if_neg (by omega), if_neg (by omega), if_neg (by omega),
        if_neg h5]
    rw [hc, localeCompare_neg_iff]

/-- C5 witness: the first-difference clause applied at `1.2.3` and `2.0.0`. -/
theorem compareVersions_order_spec_witness :
    compareVersions (parseVersion ("1.2.3".data)) (parseVersion ("2.0.0".data)) =
      ((parseVersion ("1.2.3".data)).major : Int) -
        ((parseVersion ("2.0.0".data)).major : Int) :=
  (compareVersions_order_spec (parseVersion ("1.2.3".data))
    (parseVersion ("2.0.0".data))).1 (by decide)

/-! ### Properties of the range evaluator -/

theorem checkBounds_eq_false_iff (w : Version) (s e : List Char) (sI eI : Bool) :
    checkBounds w s (some e) sI eI = false ↔
      (s ≠ [] ∧ ((sI = true ∧ compareVersions w (parseVersion s) < 0) ∨
        (sI = false ∧ compareVersions w (parseVersion s) ≤ 0))) ∨
      (e ≠ [] ∧ ((eI = true ∧ 0 < compareVersions w (parseVersion e)) ∨
        (eI = false ∧ 0 ≤ compareVersions w (parseVersion e)))) := by
  cases sI <;> cases eI <;> by_cases hs : s = [] <;> by_cases he : e = [] <;>
    simp [checkBounds, checkUpper, hs, he] <;> omega

/-- C8: an absent or empty range expression is satisfied by every version;
in particular `satisfies("3.1.0", "")` is true. -/
theorem checkRange_empty (v : List Char) :
    checkRange v none = true ∧ checkRange v (some []) = true ∧
    checkRange ("3.1.0".data) (some ("".data)) = true :=
  ⟨rfl, rfl, rfl⟩

/-- C9: a non-empty range expression made only of whitespace is satisfied by
every version: it trims to an empty bare lower bound, which is falsy and
therefore never checked. -/
theorem checkRange_whitespace (v r : List Char) (hne : r ≠ [])
    (hws : ∀ c ∈ r, jsIsWhitespace c = true) :
    checkRange v (some r) = true := by
  have ht : jsTrim r = [] := jsTrim_eq_nil r hws
  simp [checkRange, hne, ht, startsWithChar, checkBounds, checkUpper]

/-- C9 witness: a bare space is satisfied by `1.0.0`. -/
theorem checkRange_whitespace_witness :
    checkRange ("1.0.0".data) (some (" ".data)) = true :=
  checkRange_whitespace ("1.0.0".data) (" ".data) (by decide) (by decide)

theorem checkBounds_bare_iff (w : Version) (s : List Char) (hs : s ≠ []) :
    checkBounds w s none true false = true ↔
      0 ≤ compareVersions w (parseVersion s) := by
  by_cases h : compareVersions w (parseVersion s) < 0
  · have hb : checkBounds w s none true false = false := by
      simp [checkBounds, hs, h]
    rw [hb]
    exact iff_of_false (by simp) (by omega)
  · have hb : checkBounds w s none true false = true := by
      simp [checkBounds, checkUpper, hs, h]
    rw [hb]
    exact iff_of_true rfl (by omega)

/-- C3: a non-empty trimmed expression that does not have the bracketed
shape is treated as one inclusive lower bound: the result is true exactly
when the version compares at least the parsed trimmed expression; in
particular `satisfies("2.9.0","3.1.0")` is false and
`satisfies("3.1.0","3.1.0")` is true. -/
theorem checkRange_bare_lower_bound (v r : List Char)
    (hne : jsTrim r ≠ [])
    (hbr : ¬(((startsWithChar (jsTrim r) '[' || startsWithChar (jsTrim r) '(') &&
        (endsWithChar (jsTrim r) ']' || endsWithChar (jsTrim r) ')')) = true)) :
    (checkRange v (some r) = true ↔
      0 ≤ compareVersions (parseVersion v) (parseVersion (jsTrim r)))
  ∧ checkRange ("2.9.0".data) (some ("3.1.0".data)) = false
  ∧ checkRange ("3.1.0".data) (some ("3.1.0".data)) = true := by
  refine ⟨?_, by decide, by decide⟩
  have hr : r ≠ [] := by
    intro h
    rw [h] at hne
    exact hne rfl
  have heq : checkRange v (some r) =
      checkBounds (parseVersion v) (jsTrim r) none true false := by
    simp only [checkRange]
    rw [if_neg hr, if_neg hbr]
  rw [heq, checkBounds_bare_iff _ _ hne]

/-- C3 witness: the equivalence applied at version `3.1.0`, expression
`3.0.0`. -/
theorem checkRange_bare_lower_bound_witness :
    checkRange ("3.1.0".data) (some ("3.0.0".data)) = true ↔
      0 ≤ compareVersions (parseVersion ("3.1.0".data))
        (parseVersion (jsTrim ("3.0.0".data))) :=
  (checkRange_bare_lower_bound ("3.1.0".data) ("3.0.0".data) (by decide) (by decide)).1

/-- C1 counterexample: the expression `[1.0.0` begins with `[` and has no
closing bracket, so by the claim it should be satisfied by every version;
but `checkRange` only takes the permissive bracket branch when the
expression also ends with `]` or `)`, and otherwise treats the whole text
as a bare inclusive lower bound, which version `0.0.0-[0` fails. -/
theorem checkRange_open_bracket_not_permissive :
    startsWithChar ("[1.0.0".data) '[' = true
  ∧ endsWithChar ("[1.0.0".data) ']' = false
  ∧ endsWithChar ("[1.0.0".data) ')' = false
  ∧ checkRange ("0.0.0-[0".data) (some ("[1.0.0".data)) = false := by
  decide

/-- C1 amended: for a range expression whose trimmed form both begins with
`[` or `(` and ends with `]` or `)`, and whose comma-split does not have
exactly two parts (missing comma or more than one comma), `checkRange`
returns true for every version. An expression that begins with a bracket
but does not end with one instead falls to the bare lower-bound branch. -/
theorem checkRange_ambiguous_bracket (v r : List Char)
    (h1 : startsWithChar (jsTrim r) '[' = true ∨ startsWithChar (jsTrim r) '(' = true)
    (h2 : endsWithChar (jsTrim r) ']' = true ∨ endsWithChar (jsTrim r) ')' = true)
    (h3 : (splitList isComma (jsTrim r)).length ≠ 2) :
    checkRange v (some r) = true := by
  have htr : jsTrim r ≠ [] := by
    rcases h1 with h | h <;>
      · intro hnil
        rw [hnil] at h
        exact absurd h (by decide)
  have hr : r ≠ [] := by
    intro h
    apply htr
    rw [h]
    rfl
  have hcond : ((startsWithChar (jsTrim r) '[' || startsWithChar (jsTrim r) '(') &&
      (endsWithChar (jsTrim r) ']' || endsWithChar (jsTrim r) ')')) = true := by
    rcases h1 with h | h <;> rcases h2 with h' | h' <;> simp [h, h']
  simp only [checkRange]
  rw [if_neg hr, if_pos hcond]
  rcases hsp : splitList isComma (jsTrim r) with _ | ⟨p0, tl⟩
  · simp
  · rcases tl with _ | ⟨p1, tl2⟩
    · simp
    · rcases tl2 with _ | ⟨p2, tl3⟩
      · rw [hsp] at h3
        simp at h3
      · simp

/-- C1 amended witness: the spec's own example `[1.0.0; 2.0.0]` (missing
comma) is satisfied by `1.0.0`. -/
theorem checkRange_ambiguous_bracket_witness :
    checkRange ("1.0.0".data) (some ("[1.0.0; 2.0.0]".data)) = true :=
  checkRange_ambiguous_bracket ("1.0.0".data) ("[1.0.0; 2.0.0]".data)
    (Or.inl (by decide)) (Or.inl (by decide)) (by decide)

theorem checkRange_bracket_eval (v lo hi : List Char) (L R : Char)
    (hL : L = '[' ∨ L = '(') (hR : R = ']' ∨ R = ')')
    (hlo : ',' ∉ lo) (hhi : ',' ∉ hi) :
    checkRange v (some (L :: (lo ++ ',' :: (hi ++ [R])))) =
      checkBounds (parseVersion v) (jsTrim lo) (some (jsTrim hi))
        (decide (L = '[')) (decide (R = ']')) := by
  have hLw : jsIsWhitespace L = false := by
    rcases hL with rfl | rfl <;> decide
  have hRw : jsIsWhitespace R = false := by
    rcases hR with rfl | rfl <;> decide
  have hshape : L :: (lo ++ ',' :: (hi ++ [R])) = L :: ((lo ++ ',' :: hi) ++ [R]) := by
    simp
  have htrim : jsTrim (L :: (lo ++ ',' :: (hi ++ [R]))) = L :: (lo ++ ',' :: (hi ++ [R])) := by
    rw [hshape]
    exact jsTrim_of_ends L R _ hLw hRw
  have hlast : (L :: (lo ++ ',' :: (hi ++ [R]))).getLast? = some R := by
    rw [hshape]
    exact List.getLast?_concat (L :: (lo ++ ',' :: hi))
  have hsplit : splitList isComma (L :: (lo ++ ',' :: (hi ++ [R]))) =
      [L :: lo, hi ++ [R]] := by
    have h1 : ∀ c ∈ L :: lo, isComma c = false := by
      intro c hc
      rcases List.mem_cons.mp hc with rfl | hc'
      · rcases hL with rfl | rfl <;> decide
      · simp only [isComma, decide_eq_false_iff_not]
        rintro rfl
        exact hlo hc'
    have h2 : ∀ c ∈ hi ++ [R], isComma c = false := by
      intro c hc
      rcases List.mem_append.mp hc with hc' | hc'
      · simp only [isComma, decide_eq_false_iff_not]
        rintro rfl
        exact hhi hc'
      · rcases List.mem_singleton.mp hc' with rfl
        rcases hR with rfl | rfl <;> decide
    have hstep : splitList isComma ((L :: lo) ++ ',' :: (hi ++ [R])) =
        (L :: lo) :: splitList isComma (hi ++ [R]) :=
      splitList_append_sep isComma (L :: lo) (hi ++ [R]) ',' h1 (by decide)
    rw [show L :: (lo ++ ',' :: (hi ++ [R])) = (L :: lo) ++ ',' :: (hi ++ [R]) from rfl,
      hstep, splitList_no_sep isComma (hi ++ [R]) h2]
  have hsw : startsWithChar (L :: (lo ++ ',' :: (hi ++ [R]))) '[' = decide (L = '[') := rfl
  have hsw2 : startsWithChar (L :: (lo ++ ',' :: (hi ++ [R]))) '(' = decide (L = '(') := rfl
  have hew : endsWithChar (L :: (lo ++ ',' :: (hi ++ [R]))) ']' = decide (R = ']') := by
    simp [endsWithChar, hlast]
  have hew2 : endsWithChar (L :: (lo ++ ',' :: (hi ++ [R]))) ')' = decide (R = ')') := by
    simp [endsWithChar, hlast]
  have hcond : ((startsWithChar (L :: (lo ++ ',' :: (hi ++ [R]))) '[' ||
      startsWithChar (L :: (lo ++ ',' :: (hi ++ [R]))) '(') &&
      (endsWithChar (L :: (lo ++ ',' :: (hi ++ [R]))) ']' ||
       endsWithChar (L :: (lo ++ ',' :: (hi ++ [R]))) ')')) = true := by
    rw [hsw, hsw2, hew, hew2]
    rcases hL with rfl | rfl <;> rcases hR with rfl | rfl <;> decide
  simp only [checkRange]
  rw [if_neg (List.cons_ne_nil L (lo ++ ',' :: (hi ++ [R])))]
  rw [htrim, if_pos hcond, hsplit]
  rw [hsw, hew]
  show checkBounds (parseVersion v) (jsTrim (List.drop 1 (L :: lo)))
      (some (jsTrim (hi ++ [R]).dropLast)) (decide (L = '[')) (decide (R = ']')) = _
  rw [List.dropLast_concat]
  rfl

/-- C2: a well-formed bracketed range `L lo , hi R` (brackets `[`/`(` and
`]`/`)`, one comma, no commas inside the sides) parses the version and both
trimmed sides, takes lower inclusivity from `L` and upper inclusivity from
`R`, and is false exactly when a non-empty side rejects the version;
in particular `[3.0.0, 4.0.0)` contains `3.1.0` and `3.0.0` but not
`4.0.0`. -/
theorem checkRange_bracketed_range (v lo hi : List Char) (L R : Char)
    (hL : L = '[' ∨ L = '(') (hR : R = ']' ∨ R = ')')
    (hlo : ',' ∉ lo) (hhi : ',' ∉ hi) :
    (checkRange v (some (L :: (lo ++ ',' :: (hi ++ [R])))) = false ↔
      ((jsTrim lo ≠ [] ∧
         (if L = '[' then
            compareVersions (parseVersion v) (parseVersion (jsTrim lo)) < 0
          else
            compareVersions (parseVersion v) (parseVersion (jsTrim lo)) ≤ 0)) ∨
       (jsTrim hi ≠ [] ∧
         (if R = ']' then
            0 < compareVersions (parseVersion v) (parseVersion (jsTrim hi))
          else
            0 ≤ compareVersions (parseVersion v) (parseVersion (jsTrim hi))))))
  ∧ checkRange ("3.1.0".data) (some ("[3.0.0, 4.0.0)".data)) = true
  ∧ checkRange ("4.0.0".data) (some ("[3.0.0, 4.0.0)".data)) = false
  ∧ checkRange ("3.0.0".data) (some ("[3.0.0, 4.0.0)".data)) = true := by
  refine ⟨?_, by decide, by decide, by decide⟩
  rw [checkRange_bracket_eval v lo hi L R hL hR hlo hhi, checkBounds_eq_false_iff]
  rcases hL with rfl | rfl <;> rcases hR with rfl | rfl <;> simp

/-- C2 witness: `4.0.0` is rejected by `[3.0.0, 4.0.0)` through the
exclusive upper bound. -/
theorem checkRange_bracketed_range_witness :
    checkRange ("4.0.0".data)
      (some ('[' :: ("3.0.0".data ++ ',' :: (" 4.0.0".data ++ [')'])))) = false := by
  have h := (checkRange_bracketed_range ("4.0.0".data) ("3.0.0".data) (" 4.0.0".data)
    '[' ')' (Or.inl rfl) (Or.inr rfl) (by decide) (by decide)).1
  rw [h]
  right
  refine ⟨by decide, ?_⟩
  rw [if_neg (by decide)]
  decide

/-! ### Properties of the parser -/

/-- C6: the parser splits on `.` and `-`, consumes the leading run of numeric
tokens into major/minor/patch (padding with zeros), makes the first
non-numeric token the qualifier, and ignores every later token. -/
theorem parseVersion_spec :
    parseVersion ("3.1.0".data) = ⟨3, 1, 0, []⟩
  ∧ parseVersion ("3".data) = ⟨3, 0, 0, []⟩
  ∧ parseVersion ("3.0.0-RC1".data) = ⟨3, 0, 0, "RC1".data⟩
  ∧ (parseVersion ("3.0.0-M2-extra".data)).qualifier = "M2".data
  ∧ (∀ v nums q rest, splitList isVersionSep v = nums ++ q :: rest →
      (∀ p ∈ nums, isNumericToken p = true) → isNumericToken q = false →
      parseVersion v =
        { major := (nums.map natOfDigits).getD 0 0
          minor := (nums.map natOfDigits).getD 1 0
          patch := (nums.map natOfDigits).getD 2 0
          qualifier := q })
  ∧ (∀ v, (∀ p ∈ splitList isVersionSep v, isNumericToken p = true) →
      parseVersion v =
        { major := ((splitList isVersionSep v).map natOfDigits).getD 0 0
          minor := ((splitList isVersionSep v).map natOfDigits).getD 1 0
          patch := ((splitList isVersionSep v).map natOfDigits).getD 2 0
          qualifier := [] }) := by
  refine ⟨by decide, by decide, by decide, by decide, ?_, ?_⟩
  · intro v nums q rest hsp hn hq
    rw [parseVersion_eq, hsp, collectParts_to_break nums q rest hn hq]
    rfl
  · intro v hn
    rw [parseVersion_eq, collectParts_all_numeric _ hn]
    rfl

/-- C6 witness: the clause about a non-numeric token applied to
`3.0.0-M2-extra`, whose trailing `extra` token is ignored. -/
theorem parseVersion_spec_witness :
    parseVersion ("3.0.0-M2-extra".data) =
      { major := (["3".data, "0".data, "0".data].map natOfDigits).getD 0 0
        minor := (["3".data, "0".data, "0".data].map natOfDigits).getD 1 0
        patch := (["3".data, "0".data, "0".data].map natOfDigits).getD 2 0
        qualifier := "M2".data } :=
  parseVersion_spec.2.2.2.2.1 ("3.0.0-M2-extra".data)
    ["3".data, "0".data, "0".data] ("M2".data) ["extra".data]
    (by decide) (by decide) (by decide)

/-- C7: parsing never fails: every input yields a defaulted Version value;
the empty string gives all-zero components, and an input whose tokens are
all non-numeric keeps major, minor and patch at 0. -/
theorem parseVersion_no_error :
    parseVersion ("".data) = ⟨0, 0, 0, []⟩
  ∧ (∀ v, ∃ t : Version, parseVersion v = t)
  ∧ (∀ v, (∀ p ∈ splitList isVersionSep v, isNumericToken p = false) →
      (parseVersion v).major = 0 ∧ (parseVersion v).minor = 0 ∧
      (parseVersion v).patch = 0) := by
  refine ⟨by decide, fun v => ⟨parseVersion v, rfl⟩, ?_⟩
  intro v hn
  rcases hsp : splitList isVersionSep v with _ | ⟨t, rest⟩
  · rw [parseVersion_eq, hsp]
    simp [collectParts]
  · have ht : isNumericToken t = false := hn t (by rw [hsp]; simp)
    have hc : collectParts (t :: rest) = ([], some t) := by
      simp [collectParts, ht]
    rw [parseVersion_eq, hsp, hc]
    simp

/-- C7 witness: an input with no numeric token at all is parsed to zero
numeric components. -/
theorem parseVersion_no_error_witness :
    (parseVersion ("abc".data)).major = 0 ∧ (parseVersion ("abc".data)).minor = 0 ∧
    (parseVersion ("abc".data)).patch = 0 :=
  parseVersion_no_error.2.2 ("abc".data) (by decide)

/-- C10: with more than three leading numeric tokens, the fourth and later
numeric tokens are discarded, and the first non-numeric token after them
still becomes the qualifier. -/
theorem parseVersion_extra_numeric_tokens :
    parseVersion ("1.2.3.4".data) = ⟨1, 2, 3, []⟩
  ∧ parseVersion ("1.2.3.4-RC1".data) = ⟨1, 2, 3, "RC1".data⟩
  ∧ (∀ v n0 n1 n2 more q rest,
      splitList isVersionSep v = (n0 :: n1 :: n2 :: more) ++ q :: rest →
      isNumericToken n0 = true → isNumericToken n1 = true → isNumericToken n2 = true →
      (∀ p ∈ more, isNumericToken p = true) → isNumericToken q = false →
      parseVersion v = ⟨natOfDigits n0, natOfDigits n1, natOfDigits n2, q⟩)
  ∧ (∀ v n0 n1 n2 more,
      splitList isVersionSep v = n0 :: n1 :: n2 :: more →
      isNumericToken n0 = true → isNumericToken n1 = true → isNumericToken n2 = true →
      (∀ p ∈ more, isNumericToken p = true) →
      parseVersion v = ⟨natOfDigits n0, natOfDigits n1, natOfDigits n2, []⟩) := by
  refine ⟨by decide, by decide, ?_, ?_⟩
  · intro v n0 n1 n2 more q rest hsp h0 h1 h2 hm hq
    have hall : ∀ p ∈ n0 :: n1 :: n2 :: more, isNumericToken p = true := by
      intro p hp
      rcases List.mem_cons.mp hp with rfl | hp
      · exact h0
      rcases List.mem_cons.mp hp with rfl | hp
      · exact h1
      rcases List.mem_cons.mp hp with rfl | hp
      · exact h2
      exact hm p hp
    rw [parseVersion_eq, hsp, collectParts_to_break (n0 :: n1 :: n2 :: more) q rest hall hq]
    rfl
  · intro v n0 n1 n2 more hsp h0 h1 h2 hm
    have hall : ∀ p ∈ n0 :: n1 :: n2 :: more, isNumericToken p = true := by
      intro p hp
      rcases List.mem_cons.mp hp with rfl | hp
      · exact h0
      rcases List.mem_cons.mp hp with rfl | hp
      · exact h1
      rcases List.mem_cons.mp hp with rfl | hp
      · exact h2
      exact hm p hp
    rw [parseVersion_eq, hsp, collectParts_all_numeric _ hall]
    rfl

/-- C10 witness: the qualifier clause applied to `1.2.3.4-RC1`, where the
fourth numeric token `4` is discarded. -/
theorem parseVersion_extra_numeric_tokens_witness :
    parseVersion ("1.2.3.4-RC1".data) =
      ⟨natOfDigits ("1".data), natOfDigits ("2".data), natOfDigits ("3".data),
        "RC1".data⟩ :=
  parseVersion_extra_numeric_tokens.2.2.1 ("1.2.3.4-RC1".data) ("1".data) ("2".data)
    ("3".data) [("4".data)] ("RC1".data) [] (by decide) (by decide) (by decide)
    (by decide) (by decide) (by decide)
